import Mathlib

/-! # galaxycache codecs (`codec.go`)

A shallow embedding of `codec.go`: the `Codec` implementations `ByteCodec`,
`StringCodec` and `ProtoCodec`, over an explicit model of the part of the Go
store they touch.

* A Go `[]byte` is a slice header (backing array, offset, length, capacity)
  pointing into a heap of byte arrays, so that two headers may share storage.
* A Go `string` is an immutable byte sequence, hence a plain value.
* A method with a pointer receiver takes the receiver's value and the store and
  returns its results together with the receiver's value and the store after
  the call.
* `proto.Marshal` and `proto.Unmarshal` belong to an external library and are
  parameters of the `ProtoCodec` methods. A call of `proto.Unmarshal` returns an
  `error` or panics; `codec.go` recovers nothing, so the panic is then the
  outcome of the method.
-/

namespace Galaxycache

/-! ## The Go store -/

/-- Go `byte` (`uint8`). -/
abbrev Byte := UInt8

/-- The heap of backing arrays; an array's address is its index. Allocation
appends a new array. -/
abbrev Heap := List (List Byte)

/-- Go `error` values; the interface value `nil` is `none` of `Option Error`. -/
abbrev Error := String

/-- A Go `[]byte` value: `ptr = none` is the `nil` slice, otherwise the slice is
the window `[off, off + len)` of the array at address `ptr`, extensible up to
`off + cap`. -/
structure Slice where
  ptr : Option Nat
  off : Nat
  len : Nat
  cap : Nat
deriving DecidableEq

/-- What a call leaves behind: the returned values, the receiver's value after
the call, and the store after the call. -/
structure Ret (α κ σ : Type) where
  out : α
  recv : κ
  store : σ

/-- The backing array at address `a` (empty when nothing is allocated there). -/
def arrayAt (h : Heap) (a : Nat) : List Byte := h.getD a []

/-- A slice header is well-formed in a heap: its window lies inside an allocated
array; a `nil` slice has no capacity. -/
def Slice.valid (s : Slice) (h : Heap) : Prop :=
  s.len ≤ s.cap ∧
    match s.ptr with
    | none => s.cap = 0
    | some a => a < h.length ∧ s.off + s.cap ≤ (arrayAt h a).length

instance (s : Slice) (h : Heap) : Decidable (s.valid h) := by
  unfold Slice.valid
  cases s.ptr <;> exact inferInstance

/-- The byte sequence a slice denotes in a heap: `s[0], ..., s[len(s)-1]`. -/
def Slice.bytes (s : Slice) (h : Heap) : List Byte :=
  match s.ptr with
  | none => []
  | some a => ((arrayAt h a).drop s.off).take s.len

/-- Go `len(b)`. -/
def len (b : Slice) : Nat := b.len

/-- Go `make([]byte, n)`: a fresh zeroed array of `n` bytes and a non-nil slice
over all of it. -/
def make (n : Nat) (h : Heap) : Slice × Heap :=
  (⟨some h.length, 0, n, n⟩, h ++ [List.replicate n 0])

/-- Go `copy(dst, src)`: copies `min(len(dst), len(src))` bytes from `src` to the
start of `dst` and returns that number. The source is read before the
destination is written, so overlapping slices are handled as Go does. -/
def copy (dst src : Slice) (h : Heap) : Nat × Heap :=
  let n := min (len dst) (len src)
  match dst.ptr with
  | none => (n, h)
  | some a =>
    let data := (src.bytes h).take n
    let arr := arrayAt h a
    (n, h.set a (arr.take dst.off ++ data ++ arr.drop (dst.off + n)))

/-- Go `s[i] = v` on a byte slice: `none` is the index-out-of-range panic. -/
def Slice.store (s : Slice) (i : Nat) (v : Byte) (h : Heap) : Option Heap :=
  if i < s.len then
    match s.ptr with
    | none => none
    | some a => some (h.set a ((arrayAt h a).set (s.off + i) v))
  else none

/-- A run of assignments `s[i] = v`, in order. -/
def Slice.storeAll (s : Slice) : List (Nat × Byte) → Heap → Option Heap
  | [], h => some h
  | (i, v) :: ws, h => (s.store i v h).bind (s.storeAll ws)

/-! ## `codec.go` -/

/-- Go source:
```go
func cloneBytes(b []byte) []byte {
	tmp := make([]byte, len(b))
	copy(tmp, b)
	return tmp
}
```
-/
def cloneBytes (b : Slice) (h : Heap) : Slice × Heap :=
  let (tmp, h1) := make (len b) h
  let (_, h2) := copy tmp b h1
  (tmp, h2)

/-- Go source: `type ByteCodec []byte`. -/
abbrev ByteCodec := Slice

/-- Go source:
```go
func (c *ByteCodec) MarshalBinary() ([]byte, error) {
	return *c, nil
}
```
-/
def ByteCodec.MarshalBinary (c : ByteCodec) (h : Heap) :
    Ret (Slice × Option Error) ByteCodec Heap :=
  ⟨(c, none), c, h⟩

/-- Go source:
```go
func (c *ByteCodec) UnmarshalBinary(data []byte) error {
	*c = cloneBytes(data)
	return nil
}
```
-/
def ByteCodec.UnmarshalBinary (_c : ByteCodec) (data : Slice) (h : Heap) :
    Ret (Option Error) ByteCodec Heap :=
  let (tmp, h1) := cloneBytes data h
  ⟨none, tmp, h1⟩

/-- Go `string`: an immutable byte sequence. -/
abbrev GoString := List Byte

/-- Go conversion `[]byte(s)` of a string: a fresh array holding the bytes of
`s` and a non-nil slice over all of it. -/
def bytesOfString (s : GoString) (h : Heap) : Slice × Heap :=
  (⟨some h.length, 0, s.length, s.length⟩, h ++ [s])

/-- Go conversion `string(b)` of a byte slice (here `StringCodec(b)`): the bytes
of `b`, copied out of the heap verbatim. -/
def stringOfBytes (b : Slice) (h : Heap) : GoString := b.bytes h

/-- Go source: `type StringCodec string`. -/
abbrev StringCodec := GoString

/-- Go source:
```go
func (c *StringCodec) MarshalBinary() ([]byte, error) {
	return []byte(*c), nil
}
```
-/
def StringCodec.MarshalBinary (c : StringCodec) (h : Heap) :
    Ret (Slice × Option Error) StringCodec Heap :=
  let (out, h1) := bytesOfString c h
  ⟨(out, none), c, h1⟩

/-- Go source:
```go
func (c *StringCodec) UnmarshalBinary(data []byte) error {
	*c = StringCodec(cloneBytes(data))
	return nil
}
```
-/
def StringCodec.UnmarshalBinary (_c : StringCodec) (data : Slice) (h : Heap) :
    Ret (Option Error) StringCodec Heap :=
  let (tmp, h1) := cloneBytes data h
  ⟨none, stringOfBytes tmp h1, h1⟩

/-- The store the external protobuf library works on: the byte heap and the
message objects, a message's address being its index in `msgs`. The message
type `M` is whatever the caller's schema defines. -/
structure World (M : Type) where
  heap : Heap
  msgs : List M

/-- Go `proto.Message` interface value: `none` is `nil`, `some a` refers to the
message object at address `a`. -/
abbrev Message := Option Nat

/-- How a call that yields an `error` ends: it returns one (`nil` is `none`), or
it panics and returns nothing. -/
inductive Outcome where
  | returned (err : Option Error)
  | panicked
deriving DecidableEq

/-- The call returned a non-nil error to its caller. -/
def Outcome.failed : Outcome → Bool
  | .returned (some _) => true
  | _ => false

/-- The two entry points of `github.com/golang/protobuf/proto` that `codec.go`
calls. The library is not part of the repository: `Marshal(m)` returns
`([]byte, error)`; `Unmarshal(b, m)` returns `error` or panics, and the store
it leaves is the one at its return or at its panic. Either may change the store
in any way. -/
structure Proto (M : Type) where
  Marshal : Message → World M → (Slice × Option Error) × World M
  Unmarshal : Slice → Message → World M → Outcome × World M

/-- Go source:
```go
type ProtoCodec struct {
	Msg proto.Message
}
```
-/
structure ProtoCodec where
  Msg : Message
deriving DecidableEq

/-- Go source:
```go
func (c *ProtoCodec) MarshalBinary() ([]byte, error) {
	return proto.Marshal(c.Msg)
}
```
-/
def ProtoCodec.MarshalBinary {M : Type} (proto : Proto M) (c : ProtoCodec) (w : World M) :
    Ret (Slice × Option Error) ProtoCodec (World M) :=
  let (r, w1) := proto.Marshal c.Msg w
  ⟨r, c, w1⟩

/-- Go source:
```go
func (c *ProtoCodec) UnmarshalBinary(data []byte) error {
	return proto.Unmarshal(data, c.Msg)
}
```
The method has no `recover`: when the callee panics, so does the method. -/
def ProtoCodec.UnmarshalBinary {M : Type} (proto : Proto M) (c : ProtoCodec) (data : Slice)
    (w : World M) : Ret Outcome ProtoCodec (World M) :=
  let (e, w1) := proto.Unmarshal data c.Msg w
  ⟨e, c, w1⟩

/-! ## Two protobuf libraries

Two instances of `Proto` for a schema with one bytes field, the message object
being the field's value. On the wire a message is one length byte followed by
exactly that many payload bytes. Both libraries encode alike and accept the same
inputs on a set message; they differ in when a decode touches the message: the
first clears the message and then parses, the second looks at message and input
first and writes only a complete result. -/

/-- The error of a call on a nil or dangling message. -/
def errNilMessage : Error := "proto: nil message"

/-- The error of a decode whose input ends early or runs long. -/
def errMalformed : Error := "proto: malformed input"

/-- Encoder: the length byte, then the payload, in a fresh array. -/
def wireMarshal (m : Message) (w : World (List Byte)) :
    (Slice × Option Error) × World (List Byte) :=
  match m with
  | none => ((⟨none, 0, 0, 0⟩, some errNilMessage), w)
  | some a =>
    match w.msgs[a]? with
    | none => ((⟨none, 0, 0, 0⟩, some errNilMessage), w)
    | some payload =>
      let (out, h1) := bytesOfString (UInt8.ofNat payload.length :: payload) w.heap
      ((out, none), { w with heap := h1 })

/-- Wire parser: the payload, when the length byte matches what follows it. -/
def wireParse : List Byte → Option (List Byte)
  | [] => none
  | n :: rest => if rest.length = n.toNat then some rest else none

/-- Decoder that clears the message before it parses, as a decoder that starts
with `m.Reset()` does. Clearing a nil message dereferences nil: the call
panics. On a set message a failed parse leaves the message cleared. -/
def wireUnmarshalReset (b : Slice) (m : Message) (w : World (List Byte)) :
    Outcome × World (List Byte) :=
  match m with
  | none => (.panicked, w)
  | some a =>
    let w1 : World (List Byte) := { w with msgs := w.msgs.set a [] }
    match wireParse (b.bytes w1.heap) with
    | none => (.returned (some errMalformed), w1)
    | some payload => (.returned none, { w1 with msgs := w1.msgs.set a payload })

/-- Decoder that checks the message for nil, parses, and writes the message only
on success. -/
def wireUnmarshalChecked (b : Slice) (m : Message) (w : World (List Byte)) :
    Outcome × World (List Byte) :=
  match m with
  | none => (.returned (some errNilMessage), w)
  | some a =>
    match wireParse (b.bytes w.heap) with
    | none => (.returned (some errMalformed), w)
    | some payload => (.returned none, { w with msgs := w.msgs.set a payload })

/-- The library whose decoder clears first. -/
def resettingProto : Proto (List Byte) := ⟨wireMarshal, wireUnmarshalReset⟩

/-- The library whose decoder writes only on success. -/
def checkedProto : Proto (List Byte) := ⟨wireMarshal, wireUnmarshalChecked⟩

/-- An external decoder is failure-atomic when a call that returns an error
leaves the store as it found it. -/
def Proto.FailureAtomic {M : Type} (proto : Proto M) : Prop :=
  ∀ (b : Slice) (m : Message) (w : World M),
    (proto.Unmarshal b m w).1.failed = true → (proto.Unmarshal b m w).2 = w

/-! ## What a caller observes -/

/-- The byte sequence and the error a caller gets from `c.MarshalBinary()` on a
`ByteCodec`: the returned slice read in the store the call leaves. -/
def ByteCodec.marshalled (c : ByteCodec) (h : Heap) : List Byte × Option Error :=
  let r := ByteCodec.MarshalBinary c h
  (r.out.1.bytes r.store, r.out.2)

/-- The byte sequence and the error a caller gets from `c.MarshalBinary()` on a
`StringCodec`. -/
def StringCodec.marshalled (c : StringCodec) (h : Heap) : List Byte × Option Error :=
  let r := StringCodec.MarshalBinary c h
  (r.out.1.bytes r.store, r.out.2)

/-- The byte sequence and the error a caller gets from `c.MarshalBinary()` on a
`ProtoCodec`. -/
def ProtoCodec.marshalled {M : Type} (proto : Proto M) (c : ProtoCodec) (w : World M) :
    List Byte × Option Error :=
  let r := ProtoCodec.MarshalBinary proto c w
  (r.out.1.bytes r.store.heap, r.out.2)

/-! ## Reading a slice; the unset message -/

/-- The zero value of a Go slice type, `nil`: the value of a `ByteCodec` that
was declared and never assigned. -/
def nilSlice : Slice := ⟨none, 0, 0, 0⟩

/-- Go `s == nil` on a slice. -/
def Slice.isNil (s : Slice) : Bool := s.ptr.isNone

/-- Go `s[i]` read from a byte slice: `none` is the index-out-of-range panic. -/
def Slice.index (s : Slice) (i : Nat) (h : Heap) : Option Byte :=
  if i < s.len then
    match s.ptr with
    | none => none
    | some a => (arrayAt h a)[s.off + i]?
  else none

/-- Modelled from the spec: the error kind `EncodingError` of section 7, "encode
could not produce bytes". -/
def EncodingError : Error := "EncodingError"

/-- Modelled from the spec: the answer of the external encoder for an unset
message. `codec.go` hands `c.Msg` to `proto.Marshal` without looking at it, and
the library's code is not in the repository. By section 4.4 encode "fails with
`EncodingError` if the referenced message is unset/null". Encode is
`bytes | Error`, so a failed encode carries no bytes: the `nil` slice. On a set
message the encoder is that of any library `p`, and so is the decoder on every
message. -/
def specProto {M : Type} (p : Proto M) : Proto M where
  Marshal := fun m w =>
    match m with
    | none => ((nilSlice, some EncodingError), w)
    | some a => p.Marshal (some a) w
  Unmarshal := p.Unmarshal

/-! ## Facts about the store -/

theorem arrayAt_append_left (h : Heap) (x : List Byte) (a : Nat) (ha : a < h.length) :
    arrayAt (h ++ [x]) a = arrayAt h a := by
  simp [arrayAt, List.getD_eq_getElem?_getD, List.getElem?_append_left ha]

theorem arrayAt_append_length (h : Heap) (x : List Byte) :
    arrayAt (h ++ [x]) h.length = x := by
  simp [arrayAt, List.getD_eq_getElem?_getD]

theorem bytes_append (s : Slice) (h : Heap) (x : List Byte) (hv : s.valid h) :
    s.bytes (h ++ [x]) = s.bytes h := by
  unfold Slice.bytes
  cases hp : s.ptr with
  | none => rfl
  | some a =>
    have ha : a < h.length := by
      have := hv.2
      rw [hp] at this
      exact this.1
    simp [arrayAt_append_left h x a ha]

theorem length_bytes (s : Slice) (h : Heap) (hv : s.valid h) :
    (s.bytes h).length = s.len := by
  unfold Slice.bytes
  cases hp : s.ptr with
  | none =>
    have := hv.2
    rw [hp] at this
    have h1 := hv.1
    simp at this ⊢
    omega
  | some a =>
    have := hv.2
    rw [hp] at this
    have h1 := hv.1
    simp at this ⊢
    omega

/-- What `cloneBytes` does to the store: one new array, holding the bytes of
`b`, is appended, and the result is the slice over all of it. -/
theorem cloneBytes_eq (b : Slice) (h : Heap) (hv : b.valid h) :
    cloneBytes b h = (⟨some h.length, 0, b.len, b.len⟩, h ++ [b.bytes h]) := by
  have hl := length_bytes b h hv
  simp only [cloneBytes, make, copy, len, Nat.min_self, bytes_append b h _ hv,
    arrayAt_append_length]
  simp [← hl]

theorem bytes_congr (s : Slice) (h h' : Heap)
    (hp : ∀ a, s.ptr = some a → arrayAt h' a = arrayAt h a) : s.bytes h' = s.bytes h := by
  unfold Slice.bytes
  cases hs : s.ptr with
  | none => rfl
  | some a => simp [hp a hs]

theorem store_arrayAt_ne (s : Slice) (i : Nat) (v : Byte) (h h' : Heap) (p : Nat)
    (hs : s.store i v h = some h') (hp : s.ptr ≠ some p) : arrayAt h' p = arrayAt h p := by
  unfold Slice.store at hs
  split at hs
  · cases ha : s.ptr with
    | none => simp [ha] at hs
    | some a =>
      simp only [ha, Option.some.injEq] at hs
      have hne : a ≠ p := fun e => hp (by rw [ha, e])
      subst hs
      simp [arrayAt, List.getD_eq_getElem?_getD, List.getElem?_set_ne hne]
  · simp at hs

theorem storeAll_arrayAt_ne (s : Slice) (ws : List (Nat × Byte)) (h h' : Heap) (p : Nat)
    (hs : s.storeAll ws h = some h') (hp : s.ptr ≠ some p) : arrayAt h' p = arrayAt h p := by
  induction ws generalizing h with
  | nil =>
    simp only [Slice.storeAll, Option.some.injEq] at hs
    rw [hs]
  | cons w ws ih =>
    obtain ⟨i, v⟩ := w
    simp only [Slice.storeAll] at hs
    cases h1 : s.store i v h with
    | none => simp [h1] at hs
    | some hm =>
      simp only [h1, Option.some_bind] at hs
      rw [ih hm hs, store_arrayAt_ne s i v h hm p h1 hp]

theorem ptr_ne_length (s : Slice) (h : Heap) (hv : s.valid h) : s.ptr ≠ some h.length := by
  intro he
  have := hv.2
  rw [he] at this
  exact Nat.lt_irrefl _ this.1

theorem fresh_bytes (h : Heap) (x : List Byte) :
    Slice.bytes ⟨some h.length, 0, x.length, x.length⟩ (h ++ [x]) = x := by
  simp [Slice.bytes, arrayAt_append_length]

theorem byteCodec_unmarshalBinary_eq (c : ByteCodec) (b : Slice) (h : Heap) (hv : b.valid h) :
    ByteCodec.UnmarshalBinary c b h
      = ⟨none, ⟨some h.length, 0, b.len, b.len⟩, h ++ [b.bytes h]⟩ := by
  simp [ByteCodec.UnmarshalBinary, cloneBytes_eq b h hv]

theorem stringCodec_unmarshalBinary_eq (c : StringCodec) (b : Slice) (h : Heap)
    (hv : b.valid h) :
    StringCodec.UnmarshalBinary c b h = ⟨none, b.bytes h, h ++ [b.bytes h]⟩ := by
  have hf := fresh_bytes h (b.bytes h)
  rw [length_bytes b h hv] at hf
  simp only [StringCodec.UnmarshalBinary, cloneBytes_eq b h hv, stringOfBytes, hf]

theorem stringCodec_marshalled_eq (c : StringCodec) (h : Heap) :
    StringCodec.marshalled c h = (c, none) := by
  show (Slice.bytes ⟨some h.length, 0, c.length, c.length⟩ (h ++ [c]), none) = (c, none)
  rw [fresh_bytes]

theorem byteCodec_marshalled_eq (c : ByteCodec) (h : Heap) :
    ByteCodec.marshalled c h = (c.bytes h, none) := rfl

theorem byteCodec_marshalled_fresh (h : Heap) (x : List Byte) :
    ByteCodec.marshalled ⟨some h.length, 0, x.length, x.length⟩ (h ++ [x]) = (x, none) := by
  rw [byteCodec_marshalled_eq, fresh_bytes]

theorem byteCodec_decode_encode (c : ByteCodec) (b : Slice) (h : Heap) (hb : b.valid h) :
    ByteCodec.marshalled (ByteCodec.UnmarshalBinary c b h).recv
      (ByteCodec.UnmarshalBinary c b h).store = (b.bytes h, none) := by
  rw [byteCodec_unmarshalBinary_eq c b h hb]
  have hm := byteCodec_marshalled_fresh h (b.bytes h)
  rw [length_bytes b h hb] at hm
  exact hm

theorem stringCodec_decode_encode (c : StringCodec) (b : Slice) (h : Heap) (hb : b.valid h) :
    StringCodec.marshalled (StringCodec.UnmarshalBinary c b h).recv
      (StringCodec.UnmarshalBinary c b h).store = (b.bytes h, none) := by
  rw [stringCodec_marshalled_eq, stringCodec_unmarshalBinary_eq c b h hb]

/-! ## Round trip: decode, then encode -/

/-- C1: for every byte slice `b` (the empty one included) and every `ByteCodec`
in any prior state, `c.UnmarshalBinary(b)` followed by `c.MarshalBinary()`
returns exactly the bytes of `b` and a nil error. -/
theorem byteCodec_unmarshal_then_marshal (c : ByteCodec) (b : Slice) (h : Heap)
    (hb : b.valid h) :
    ByteCodec.marshalled (ByteCodec.UnmarshalBinary c b h).recv
      (ByteCodec.UnmarshalBinary c b h).store = (b.bytes h, none) :=
  byteCodec_decode_encode c b h hb

theorem byteCodec_unmarshal_then_marshal_witness :
    Slice.valid ⟨some 0, 0, 3, 3⟩ [[0x01, 0x02, 0x03]] ∧
      ByteCodec.marshalled
        (ByteCodec.UnmarshalBinary ⟨none, 0, 0, 0⟩ ⟨some 0, 0, 3, 3⟩ [[0x01, 0x02, 0x03]]).recv
        (ByteCodec.UnmarshalBinary ⟨none, 0, 0, 0⟩ ⟨some 0, 0, 3, 3⟩ [[0x01, 0x02, 0x03]]).store
        = ([0x01, 0x02, 0x03], none) :=
  ⟨by decide,
    byteCodec_unmarshal_then_marshal ⟨none, 0, 0, 0⟩ ⟨some 0, 0, 3, 3⟩ [[0x01, 0x02, 0x03]]
      (by decide)⟩

/-- C2: for every byte slice `b`, valid UTF-8 or not, and every `StringCodec` in
any prior state, `c.UnmarshalBinary(b)` followed by `c.MarshalBinary()` returns
exactly the bytes of `b` and a nil error: the bytes are kept verbatim. -/
theorem stringCodec_unmarshal_then_marshal (c : StringCodec) (b : Slice) (h : Heap)
    (hb : b.valid h) :
    StringCodec.marshalled (StringCodec.UnmarshalBinary c b h).recv
      (StringCodec.UnmarshalBinary c b h).store = (b.bytes h, none) :=
  stringCodec_decode_encode c b h hb

theorem stringCodec_unmarshal_then_marshal_witness :
    Slice.valid ⟨some 0, 1, 3, 4⟩ [[0x68, 0xff, 0xc0, 0x80, 0x6f]] ∧
      StringCodec.marshalled
        (StringCodec.UnmarshalBinary [0x68, 0x69] ⟨some 0, 1, 3, 4⟩
          [[0x68, 0xff, 0xc0, 0x80, 0x6f]]).recv
        (StringCodec.UnmarshalBinary [0x68, 0x69] ⟨some 0, 1, 3, 4⟩
          [[0x68, 0xff, 0xc0, 0x80, 0x6f]]).store
        = ([0xff, 0xc0, 0x80], none) :=
  ⟨by decide,
    stringCodec_unmarshal_then_marshal [0x68, 0x69] ⟨some 0, 1, 3, 4⟩
      [[0x68, 0xff, 0xc0, 0x80, 0x6f]] (by decide)⟩

/-! ## Independence of the decoded state from the caller's buffer -/

/-- C3: after `c.UnmarshalBinary(b)`, on a `ByteCodec` as on a `StringCodec`, any
run of assignments `b[i] = v` by the caller leaves what `c.MarshalBinary()`
returns as it was: the bytes `b` held when it was decoded, with a nil error.
`hB` is the store after the caller's writes; a `StringCodec` holds a string, so
for it the same is true in every store `hS`, that one included. -/
theorem unmarshal_does_not_alias (cb : ByteCodec) (cs : StringCodec) (b : Slice)
    (h hB hS : Heap) (ws : List (Nat × Byte)) (hb : b.valid h)
    (hwB : b.storeAll ws (ByteCodec.UnmarshalBinary cb b h).store = some hB) :
    (ByteCodec.marshalled (ByteCodec.UnmarshalBinary cb b h).recv hB
        = ByteCodec.marshalled (ByteCodec.UnmarshalBinary cb b h).recv
            (ByteCodec.UnmarshalBinary cb b h).store ∧
      ByteCodec.marshalled (ByteCodec.UnmarshalBinary cb b h).recv hB = (b.bytes h, none)) ∧
    (StringCodec.marshalled (StringCodec.UnmarshalBinary cs b h).recv hS
        = StringCodec.marshalled (StringCodec.UnmarshalBinary cs b h).recv
            (StringCodec.UnmarshalBinary cs b h).store ∧
      StringCodec.marshalled (StringCodec.UnmarshalBinary cs b h).recv hS
        = (b.bytes h, none)) := by
  have h1 := byteCodec_decode_encode cb b h hb
  have h2 := stringCodec_decode_encode cs b h hb
  refine ⟨?_, ?_⟩
  · have key : ByteCodec.marshalled (ByteCodec.UnmarshalBinary cb b h).recv hB
        = ByteCodec.marshalled (ByteCodec.UnmarshalBinary cb b h).recv
            (ByteCodec.UnmarshalBinary cb b h).store := by
      rw [byteCodec_unmarshalBinary_eq cb b h hb] at hwB ⊢
      simp only [byteCodec_marshalled_eq, Prod.mk.injEq, and_true]
      apply bytes_congr
      intro a ha
      simp only [Option.some.injEq] at ha
      subst ha
      exact storeAll_arrayAt_ne b ws _ hB h.length hwB (ptr_ne_length b h hb)
    exact ⟨key, key.trans h1⟩
  · simp only [stringCodec_marshalled_eq] at h2 ⊢
    exact ⟨trivial, h2⟩

theorem unmarshal_does_not_alias_witness :
    Slice.valid ⟨some 0, 0, 3, 3⟩ [[1, 2, 3]] ∧
    Slice.storeAll ⟨some 0, 0, 3, 3⟩ [(0, 9), (2, 7)]
      (ByteCodec.UnmarshalBinary ⟨none, 0, 0, 0⟩ ⟨some 0, 0, 3, 3⟩ [[1, 2, 3]]).store
      = some [[9, 2, 7], [1, 2, 3]] ∧
    ByteCodec.marshalled
      (ByteCodec.UnmarshalBinary ⟨none, 0, 0, 0⟩ ⟨some 0, 0, 3, 3⟩ [[1, 2, 3]]).recv
      [[9, 2, 7], [1, 2, 3]] = ([1, 2, 3], none) ∧
    StringCodec.marshalled
      (StringCodec.UnmarshalBinary [] ⟨some 0, 0, 3, 3⟩ [[1, 2, 3]]).recv
      [[9, 2, 7], [1, 2, 3]] = ([1, 2, 3], none) :=
  ⟨by decide, by decide,
    (unmarshal_does_not_alias ⟨none, 0, 0, 0⟩ [] ⟨some 0, 0, 3, 3⟩ [[1, 2, 3]]
      [[9, 2, 7], [1, 2, 3]] [[9, 2, 7], [1, 2, 3]] [(0, 9), (2, 7)]
      (by decide) (by decide)).1.2,
    (unmarshal_does_not_alias ⟨none, 0, 0, 0⟩ [] ⟨some 0, 0, 3, 3⟩ [[1, 2, 3]]
      [[9, 2, 7], [1, 2, 3]] [[9, 2, 7], [1, 2, 3]] [(0, 9), (2, 7)]
      (by decide) (by decide)).2.2⟩

/-! ## The slice returned by `ByteCodec.MarshalBinary` -/

theorem arrayAt_set_self (h : Heap) (a : Nat) (x : List Byte) (ha : a < h.length) :
    arrayAt (h.set a x) a = x := by
  simp [arrayAt, List.getD_eq_getElem?_getD, List.getElem?_set_self ha]

theorem bytes_store (s : Slice) (h : Heap) (i : Nat) (v : Byte) (hv : s.valid h)
    (hi : i < s.len) :
    (s.store i v h).map s.bytes = some ((s.bytes h).set i v) := by
  unfold Slice.store Slice.bytes
  cases hp : s.ptr with
  | none =>
    have h2 := hv.2
    have h1 := hv.1
    rw [hp] at h2
    simp only at h2
    omega
  | some a =>
    have h2 := hv.2
    rw [hp] at h2
    simp only [hi, if_true, Option.map_some', arrayAt_set_self h a _ h2.1, Option.some.injEq]
    rw [← List.set_take, List.set_drop]

/-- C4, refuted as stated: decode `[1, 2, 3]` into a `ByteCodec`, take the slice
`MarshalBinary` returns and assign `9` to its first byte; the next
`MarshalBinary` returns `[9, 2, 3]`, not the `[1, 2, 3]` the codec held. -/
theorem byteCodec_marshal_result_is_shared :
    Slice.valid ⟨some 1, 0, 3, 3⟩ [[1, 2, 3], [1, 2, 3]] ∧
    (ByteCodec.UnmarshalBinary ⟨none, 0, 0, 0⟩ ⟨some 0, 0, 3, 3⟩ [[1, 2, 3]]).recv
      = ⟨some 1, 0, 3, 3⟩ ∧
    (ByteCodec.UnmarshalBinary ⟨none, 0, 0, 0⟩ ⟨some 0, 0, 3, 3⟩ [[1, 2, 3]]).store
      = [[1, 2, 3], [1, 2, 3]] ∧
    ByteCodec.marshalled ⟨some 1, 0, 3, 3⟩ [[1, 2, 3], [1, 2, 3]] = ([1, 2, 3], none) ∧
    (ByteCodec.MarshalBinary ⟨some 1, 0, 3, 3⟩ [[1, 2, 3], [1, 2, 3]]).out.1.store 0 9
      (ByteCodec.MarshalBinary ⟨some 1, 0, 3, 3⟩ [[1, 2, 3], [1, 2, 3]]).store
      = some [[1, 2, 3], [9, 2, 3]] ∧
    ByteCodec.marshalled
      (ByteCodec.MarshalBinary ⟨some 1, 0, 3, 3⟩ [[1, 2, 3], [1, 2, 3]]).recv
      [[1, 2, 3], [9, 2, 3]] = ([9, 2, 3], none) ∧
    ByteCodec.marshalled
      (ByteCodec.MarshalBinary ⟨some 1, 0, 3, 3⟩ [[1, 2, 3], [1, 2, 3]]).recv
      [[1, 2, 3], [9, 2, 3]]
      ≠ ByteCodec.marshalled ⟨some 1, 0, 3, 3⟩ [[1, 2, 3], [1, 2, 3]] := by
  decide

/-- C4, amended: `MarshalBinary` on a `ByteCodec` returns the codec's own slice
header and leaves header and store as they are, so the returned slice shares
the codec's storage: assigning `v` to byte `i` of the returned slice makes the
next `MarshalBinary` return the bytes held before with byte `i` replaced by
`v`, still with a nil error. -/
theorem byteCodec_marshal_returns_own_storage (c : ByteCodec) (h : Heap) (i : Nat) (v : Byte)
    (hc : c.valid h) (hi : i < c.len) :
    (ByteCodec.MarshalBinary c h).out.1 = c ∧
    (ByteCodec.MarshalBinary c h).recv = c ∧
    (ByteCodec.MarshalBinary c h).store = h ∧
    (((ByteCodec.MarshalBinary c h).out.1.store i v (ByteCodec.MarshalBinary c h).store).map
        (ByteCodec.marshalled (ByteCodec.MarshalBinary c h).recv))
      = some ((c.bytes h).set i v, none) := by
  refine ⟨rfl, rfl, rfl, ?_⟩
  show ((c.store i v h).map (ByteCodec.marshalled c)) = _
  have hb := bytes_store c h i v hc hi
  cases hs : c.store i v h with
  | none => simp [hs] at hb
  | some h' =>
    simp only [hs, Option.map_some', Option.some.injEq] at hb ⊢
    rw [byteCodec_marshalled_eq, hb]

theorem byteCodec_marshal_returns_own_storage_witness :
    Slice.valid ⟨some 0, 1, 3, 4⟩ [[0, 1, 2, 3, 4]] ∧ 2 < 3 ∧
    (((ByteCodec.MarshalBinary ⟨some 0, 1, 3, 4⟩ [[0, 1, 2, 3, 4]]).out.1.store 2 9
          (ByteCodec.MarshalBinary ⟨some 0, 1, 3, 4⟩ [[0, 1, 2, 3, 4]]).store).map
        (ByteCodec.marshalled (ByteCodec.MarshalBinary ⟨some 0, 1, 3, 4⟩ [[0, 1, 2, 3, 4]]).recv))
      = some ([1, 2, 9], none) :=
  ⟨by decide, by decide,
    (byteCodec_marshal_returns_own_storage ⟨some 0, 1, 3, 4⟩ [[0, 1, 2, 3, 4]] 2 9
      (by decide) (by decide)).2.2.2⟩

/-! ## `ProtoCodec`: a failed decode -/

theorem wireUnmarshalChecked_atomic : checkedProto.FailureAtomic := by
  intro b m w hf
  show (wireUnmarshalChecked b m w).2 = w
  have hf' : (wireUnmarshalChecked b m w).1.failed = true := hf
  unfold wireUnmarshalChecked at hf' ⊢
  cases m with
  | none => rfl
  | some a =>
    cases hp : wireParse (b.bytes w.heap) with
    | none => simp [hp]
    | some payload => simp [hp, Outcome.failed] at hf'

/-- C5, refuted as stated: with an external decoder that clears the message
before parsing, a `ProtoCodec` holding the message `[7, 8]` is asked to decode
the truncated input `[5, 1]`. The call returns an error, the message is left
empty, and `MarshalBinary` returns `[0]` where it returned `[2, 7, 8]` before. -/
theorem protoCodec_failed_decode_changes_message :
    Slice.valid ⟨some 0, 0, 2, 2⟩ [[5, 1]] ∧
    (ProtoCodec.UnmarshalBinary resettingProto ⟨some 0⟩ ⟨some 0, 0, 2, 2⟩
        ⟨[[5, 1]], [[7, 8]]⟩).out.failed = true ∧
    (ProtoCodec.UnmarshalBinary resettingProto ⟨some 0⟩ ⟨some 0, 0, 2, 2⟩
        ⟨[[5, 1]], [[7, 8]]⟩).store.msgs = [[]] ∧
    (ProtoCodec.UnmarshalBinary resettingProto ⟨some 0⟩ ⟨some 0, 0, 2, 2⟩
        ⟨[[5, 1]], [[7, 8]]⟩).store.msgs ≠ [[7, 8]] ∧
    ProtoCodec.marshalled resettingProto ⟨some 0⟩ ⟨[[5, 1]], [[7, 8]]⟩ = ([2, 7, 8], none) ∧
    ProtoCodec.marshalled resettingProto
        (ProtoCodec.UnmarshalBinary resettingProto ⟨some 0⟩ ⟨some 0, 0, 2, 2⟩
          ⟨[[5, 1]], [[7, 8]]⟩).recv
        (ProtoCodec.UnmarshalBinary resettingProto ⟨some 0⟩ ⟨some 0, 0, 2, 2⟩
          ⟨[[5, 1]], [[7, 8]]⟩).store = ([0], none) := by
  decide

/-- C5, amended: for every external library, `ProtoCodec.UnmarshalBinary` never
changes the codec's `Msg` reference and leaves the store, the referenced
message with it, exactly as the external decoder leaves it. When the external
decoder is failure-atomic, a call that returns an error leaves the referenced
message, and the whole store, as before the call, and a subsequent
`MarshalBinary` returns what it would have returned before. -/
theorem protoCodec_failed_decode_as_decoder_leaves {M : Type} (proto : Proto M)
    (c : ProtoCodec) (data : Slice) (w : World M) :
    (ProtoCodec.UnmarshalBinary proto c data w).recv = c ∧
    (ProtoCodec.UnmarshalBinary proto c data w).store = (proto.Unmarshal data c.Msg w).2 ∧
    (proto.FailureAtomic → (ProtoCodec.UnmarshalBinary proto c data w).out.failed = true →
      (ProtoCodec.UnmarshalBinary proto c data w).store = w ∧
      (ProtoCodec.UnmarshalBinary proto c data w).store.msgs = w.msgs ∧
      ProtoCodec.MarshalBinary proto (ProtoCodec.UnmarshalBinary proto c data w).recv
          (ProtoCodec.UnmarshalBinary proto c data w).store
        = ProtoCodec.MarshalBinary proto c w) := by
  have hr : (ProtoCodec.UnmarshalBinary proto c data w).recv = c := rfl
  refine ⟨hr, rfl, ?_⟩
  intro hat herr
  have hs : (ProtoCodec.UnmarshalBinary proto c data w).store = w :=
    hat data c.Msg w herr
  refine ⟨hs, ?_, ?_⟩
  · rw [hs]
  · rw [hs, hr]

theorem protoCodec_failed_decode_as_decoder_leaves_witness :
    ((ProtoCodec.UnmarshalBinary resettingProto ⟨some 0⟩ ⟨some 0, 0, 2, 2⟩
          ⟨[[5, 1]], [[7, 8]]⟩).recv = ⟨some 0⟩ ∧
      (ProtoCodec.UnmarshalBinary resettingProto ⟨some 0⟩ ⟨some 0, 0, 2, 2⟩
          ⟨[[5, 1]], [[7, 8]]⟩).store
        = (resettingProto.Unmarshal ⟨some 0, 0, 2, 2⟩ (some 0) ⟨[[5, 1]], [[7, 8]]⟩).2 ∧
      (resettingProto.Unmarshal ⟨some 0, 0, 2, 2⟩ (some 0) ⟨[[5, 1]], [[7, 8]]⟩).2.msgs
        = [[]]) ∧
    (checkedProto.FailureAtomic ∧
      (ProtoCodec.UnmarshalBinary checkedProto ⟨some 0⟩ ⟨some 0, 0, 2, 2⟩
          ⟨[[5, 1]], [[7, 8]]⟩).out.failed = true ∧
      (ProtoCodec.UnmarshalBinary checkedProto ⟨some 0⟩ ⟨some 0, 0, 2, 2⟩
          ⟨[[5, 1]], [[7, 8]]⟩).store.msgs = [[7, 8]]) :=
  ⟨⟨(protoCodec_failed_decode_as_decoder_leaves resettingProto ⟨some 0⟩ ⟨some 0, 0, 2, 2⟩
        ⟨[[5, 1]], [[7, 8]]⟩).1,
      (protoCodec_failed_decode_as_decoder_leaves resettingProto ⟨some 0⟩ ⟨some 0, 0, 2, 2⟩
        ⟨[[5, 1]], [[7, 8]]⟩).2.1,
      by decide⟩,
    wireUnmarshalChecked_atomic, by decide,
    ((protoCodec_failed_decode_as_decoder_leaves checkedProto ⟨some 0⟩ ⟨some 0, 0, 2, 2⟩
      ⟨[[5, 1]], [[7, 8]]⟩).2.2 wireUnmarshalChecked_atomic (by decide)).2.1⟩

/-! ## Totality, encode-then-decode, frame and replacement -/

theorem fresh_valid (h : Heap) (x : List Byte) :
    Slice.valid ⟨some h.length, 0, x.length, x.length⟩ (h ++ [x]) := by
  refine ⟨Nat.le_refl _, ?_⟩
  show h.length < (h ++ [x]).length ∧ 0 + x.length ≤ (arrayAt (h ++ [x]) h.length).length
  rw [arrayAt_append_length]
  simp

theorem byteCodec_unmarshal_bytes (c : ByteCodec) (b : Slice) (h : Heap) (hb : b.valid h) :
    (ByteCodec.UnmarshalBinary c b h).recv.bytes (ByteCodec.UnmarshalBinary c b h).store
      = b.bytes h := by
  have := byteCodec_decode_encode c b h hb
  rw [byteCodec_marshalled_eq] at this
  exact congrArg Prod.fst this

theorem stringCodec_unmarshal_recv (c : StringCodec) (b : Slice) (h : Heap) (hb : b.valid h) :
    (StringCodec.UnmarshalBinary c b h).recv = b.bytes h := by
  rw [stringCodec_unmarshalBinary_eq c b h hb]

/-- C6: `ByteCodec` and `StringCodec` never produce an error: in every codec
state and for every input slice, `MarshalBinary` and `UnmarshalBinary` of both
return a nil error. -/
theorem byte_and_string_codecs_never_fail (cb : ByteCodec) (cs : StringCodec) (data : Slice)
    (h : Heap) :
    (ByteCodec.MarshalBinary cb h).out.2 = none ∧
    (ByteCodec.UnmarshalBinary cb data h).out = none ∧
    (StringCodec.MarshalBinary cs h).out.2 = none ∧
    (StringCodec.UnmarshalBinary cs data h).out = none :=
  ⟨rfl, rfl, rfl, rfl⟩

/-- C7: encoding a codec state with `MarshalBinary` and decoding the returned
bytes with `UnmarshalBinary` into any codec of the same variant leaves that
codec holding the original state: for a `ByteCodec` the same byte sequence (of
the same length), for a `StringCodec` the same string. -/
theorem marshal_then_unmarshal (s cb : ByteCodec) (t cs : StringCodec) (h : Heap)
    (hs : s.valid h) :
    ((ByteCodec.UnmarshalBinary cb (ByteCodec.MarshalBinary s h).out.1
          (ByteCodec.MarshalBinary s h).store).recv.bytes
        (ByteCodec.UnmarshalBinary cb (ByteCodec.MarshalBinary s h).out.1
          (ByteCodec.MarshalBinary s h).store).store = s.bytes h ∧
      (ByteCodec.UnmarshalBinary cb (ByteCodec.MarshalBinary s h).out.1
          (ByteCodec.MarshalBinary s h).store).recv.len = s.len) ∧
    (StringCodec.UnmarshalBinary cs (StringCodec.MarshalBinary t h).out.1
        (StringCodec.MarshalBinary t h).store).recv = t := by
  refine ⟨⟨?_, ?_⟩, ?_⟩
  · exact byteCodec_unmarshal_bytes cb s h hs
  · show (ByteCodec.UnmarshalBinary cb s h).recv.len = s.len
    rw [byteCodec_unmarshalBinary_eq cb s h hs]
  · show (StringCodec.UnmarshalBinary cs ⟨some h.length, 0, t.length, t.length⟩
        (h ++ [t])).recv = t
    rw [stringCodec_unmarshal_recv cs _ _ (fresh_valid h t), fresh_bytes]

theorem marshal_then_unmarshal_witness :
    Slice.valid ⟨some 0, 1, 2, 3⟩ [[1, 2, 3, 4]] ∧
    (ByteCodec.UnmarshalBinary ⟨none, 0, 0, 0⟩
          (ByteCodec.MarshalBinary ⟨some 0, 1, 2, 3⟩ [[1, 2, 3, 4]]).out.1
          (ByteCodec.MarshalBinary ⟨some 0, 1, 2, 3⟩ [[1, 2, 3, 4]]).store).recv.bytes
        (ByteCodec.UnmarshalBinary ⟨none, 0, 0, 0⟩
          (ByteCodec.MarshalBinary ⟨some 0, 1, 2, 3⟩ [[1, 2, 3, 4]]).out.1
          (ByteCodec.MarshalBinary ⟨some 0, 1, 2, 3⟩ [[1, 2, 3, 4]]).store).store = [2, 3] ∧
    (StringCodec.UnmarshalBinary [9] (StringCodec.MarshalBinary [0x68, 0x69] [[1, 2, 3, 4]]).out.1
        (StringCodec.MarshalBinary [0x68, 0x69] [[1, 2, 3, 4]]).store).recv = [0x68, 0x69] :=
  ⟨by decide,
    (marshal_then_unmarshal ⟨some 0, 1, 2, 3⟩ ⟨none, 0, 0, 0⟩ [0x68, 0x69] [9] [[1, 2, 3, 4]]
      (by decide)).1.1,
    (marshal_then_unmarshal ⟨some 0, 1, 2, 3⟩ ⟨none, 0, 0, 0⟩ [0x68, 0x69] [9] [[1, 2, 3, 4]]
      (by decide)).2⟩

/-- C8: `MarshalBinary` has no side effect on the codec. On a `ByteCodec` the
receiver and the whole store are left as they were; on a `StringCodec` the
receiver is left as it was and the store only gains the array of the result.
In both cases a second `MarshalBinary` returns the same bytes and error as the
first. -/
theorem marshal_has_no_side_effect (cb : ByteCodec) (cs : StringCodec) (h : Heap) :
    ((ByteCodec.MarshalBinary cb h).recv = cb ∧
      (ByteCodec.MarshalBinary cb h).store = h ∧
      ByteCodec.marshalled (ByteCodec.MarshalBinary cb h).recv (ByteCodec.MarshalBinary cb h).store
        = ByteCodec.marshalled cb h) ∧
    ((StringCodec.MarshalBinary cs h).recv = cs ∧
      h <+: (StringCodec.MarshalBinary cs h).store ∧
      StringCodec.marshalled (StringCodec.MarshalBinary cs h).recv
          (StringCodec.MarshalBinary cs h).store
        = StringCodec.marshalled cs h) := by
  refine ⟨⟨rfl, rfl, rfl⟩, rfl, ?_, ?_⟩
  · exact List.prefix_append h [cs]
  · rw [stringCodec_marshalled_eq, stringCodec_marshalled_eq]
    rfl

/-- C9: a decode replaces the state and merges nothing. From two prior states
the same `UnmarshalBinary(data)` gives the same outcome; the state it leaves is
the byte sequence of `data`; and equal byte sequences decoded in different
stores, from different prior states, leave equal states. -/
theorem unmarshal_replaces_state (s1 s2 : ByteCodec) (t1 t2 : StringCodec) (d1 d2 : Slice)
    (h1 h2 : Heap) (hv1 : d1.valid h1) (hv2 : d2.valid h2) (hd : d1.bytes h1 = d2.bytes h2) :
    (ByteCodec.UnmarshalBinary s1 d1 h1 = ByteCodec.UnmarshalBinary s2 d1 h1 ∧
      (ByteCodec.UnmarshalBinary s1 d1 h1).recv.bytes (ByteCodec.UnmarshalBinary s1 d1 h1).store
        = d1.bytes h1 ∧
      (ByteCodec.UnmarshalBinary s1 d1 h1).recv.bytes (ByteCodec.UnmarshalBinary s1 d1 h1).store
        = (ByteCodec.UnmarshalBinary s2 d2 h2).recv.bytes
            (ByteCodec.UnmarshalBinary s2 d2 h2).store) ∧
    (StringCodec.UnmarshalBinary t1 d1 h1 = StringCodec.UnmarshalBinary t2 d1 h1 ∧
      (StringCodec.UnmarshalBinary t1 d1 h1).recv = d1.bytes h1 ∧
      (StringCodec.UnmarshalBinary t1 d1 h1).recv = (StringCodec.UnmarshalBinary t2 d2 h2).recv) := by
  refine ⟨⟨rfl, byteCodec_unmarshal_bytes s1 d1 h1 hv1, ?_⟩,
    rfl, stringCodec_unmarshal_recv t1 d1 h1 hv1, ?_⟩
  · rw [byteCodec_unmarshal_bytes s1 d1 h1 hv1, byteCodec_unmarshal_bytes s2 d2 h2 hv2, hd]
  · rw [stringCodec_unmarshal_recv t1 d1 h1 hv1, stringCodec_unmarshal_recv t2 d2 h2 hv2, hd]

theorem unmarshal_replaces_state_witness :
    Slice.valid ⟨some 0, 0, 2, 2⟩ [[4, 5]] ∧
    Slice.valid ⟨some 1, 1, 2, 3⟩ [[], [3, 4, 5, 6]] ∧
    Slice.bytes ⟨some 0, 0, 2, 2⟩ [[4, 5]] = Slice.bytes ⟨some 1, 1, 2, 3⟩ [[], [3, 4, 5, 6]] ∧
    (ByteCodec.UnmarshalBinary ⟨none, 0, 0, 0⟩ ⟨some 0, 0, 2, 2⟩ [[4, 5]]).recv.bytes
        (ByteCodec.UnmarshalBinary ⟨none, 0, 0, 0⟩ ⟨some 0, 0, 2, 2⟩ [[4, 5]]).store
      = (ByteCodec.UnmarshalBinary ⟨some 1, 0, 4, 4⟩ ⟨some 1, 1, 2, 3⟩
            [[], [3, 4, 5, 6]]).recv.bytes
          (ByteCodec.UnmarshalBinary ⟨some 1, 0, 4, 4⟩ ⟨some 1, 1, 2, 3⟩
            [[], [3, 4, 5, 6]]).store ∧
    (StringCodec.UnmarshalBinary [] ⟨some 0, 0, 2, 2⟩ [[4, 5]]).recv
      = (StringCodec.UnmarshalBinary [1, 2, 3] ⟨some 1, 1, 2, 3⟩ [[], [3, 4, 5, 6]]).recv :=
  ⟨by decide, by decide, by decide,
    (unmarshal_replaces_state ⟨none, 0, 0, 0⟩ ⟨some 1, 0, 4, 4⟩ [] [1, 2, 3] ⟨some 0, 0, 2, 2⟩
      ⟨some 1, 1, 2, 3⟩ [[4, 5]] [[], [3, 4, 5, 6]] (by decide) (by decide) (by decide)).1.2.2,
    (unmarshal_replaces_state ⟨none, 0, 0, 0⟩ ⟨some 1, 0, 4, 4⟩ [] [1, 2, 3] ⟨some 0, 0, 2, 2⟩
      ⟨some 1, 1, 2, 3⟩ [[4, 5]] [[], [3, 4, 5, 6]] (by decide) (by decide) (by decide)).2.2.2⟩

/-! ## `ProtoCodec` delegates -/

/-- C10: `ProtoCodec` is a transparent delegate. For every external library,
held message, input and store, `MarshalBinary` returns exactly the pair
`proto.Marshal` returns for `c.Msg`, and `UnmarshalBinary(data)` exactly the
error `proto.Unmarshal` returns for `(data, c.Msg)`, ending in a panic when
that call does; the store afterwards is the one a single call of the
collaborator leaves, and `c.Msg` is untouched. An error of the collaborator is
therefore the error of the method, never swallowed, replaced by success, or
retried. -/
theorem protoCodec_delegates {M : Type} (proto : Proto M) (c : ProtoCodec) (data : Slice)
    (w : World M) :
    ((ProtoCodec.MarshalBinary proto c w).out = (proto.Marshal c.Msg w).1 ∧
      (ProtoCodec.MarshalBinary proto c w).store = (proto.Marshal c.Msg w).2 ∧
      (ProtoCodec.MarshalBinary proto c w).recv = c) ∧
    ((ProtoCodec.UnmarshalBinary proto c data w).out = (proto.Unmarshal data c.Msg w).1 ∧
      (ProtoCodec.UnmarshalBinary proto c data w).store = (proto.Unmarshal data c.Msg w).2 ∧
      (ProtoCodec.UnmarshalBinary proto c data w).recv = c) :=
  ⟨⟨rfl, rfl, rfl⟩, ⟨rfl, rfl, rfl⟩⟩

/-! ## `ProtoCodec` with an unset message -/

/-- C11: for every `ProtoCodec` whose `Msg` is nil, `MarshalBinary` fails: it
returns the encoding error of the external encoder and the nil slice, so the
caller gets an error and no bytes. The encoder's answer for an unset message is
the one the specification gives; on set messages the library is arbitrary. -/
theorem protoCodec_marshal_unset_fails {M : Type} (p : Proto M) (c : ProtoCodec) (w : World M)
    (hc : c.Msg = none) :
    (ProtoCodec.MarshalBinary (specProto p) c w).out.2 = some EncodingError ∧
    (ProtoCodec.MarshalBinary (specProto p) c w).out.2 ≠ none ∧
    (ProtoCodec.MarshalBinary (specProto p) c w).out.1 = nilSlice ∧
    ProtoCodec.marshalled (specProto p) c w = ([], some EncodingError) := by
  obtain ⟨m⟩ := c
  simp only at hc
  subst hc
  exact ⟨rfl, fun hn => Option.noConfusion hn, rfl, rfl⟩

theorem protoCodec_marshal_unset_fails_witness :
    (⟨none⟩ : ProtoCodec).Msg = none ∧
    (ProtoCodec.MarshalBinary (specProto checkedProto) ⟨none⟩ ⟨[[5, 1]], [[7, 8]]⟩).out.2 ≠ none ∧
    (ProtoCodec.MarshalBinary (specProto checkedProto) ⟨none⟩ ⟨[[5, 1]], [[7, 8]]⟩).out.1
      = nilSlice :=
  ⟨rfl,
    (protoCodec_marshal_unset_fails checkedProto ⟨none⟩ ⟨[[5, 1]], [[7, 8]]⟩ rfl).2.1,
    (protoCodec_marshal_unset_fails checkedProto ⟨none⟩ ⟨[[5, 1]], [[7, 8]]⟩ rfl).2.2.1⟩

/-- C12, refuted as stated: with an external decoder that clears the message
before parsing, `UnmarshalBinary` on a `ProtoCodec` whose `Msg` is nil does not
return a decoding error: the decoder panics on the nil message and, nothing in
`codec.go` recovering it, the call panics. -/
theorem protoCodec_unmarshal_unset_panics :
    (⟨none⟩ : ProtoCodec).Msg = none ∧
    (ProtoCodec.UnmarshalBinary resettingProto ⟨none⟩ ⟨some 0, 0, 2, 2⟩
        ⟨[[5, 1]], [[7, 8]]⟩).out = Outcome.panicked ∧
    (ProtoCodec.UnmarshalBinary resettingProto ⟨none⟩ ⟨some 0, 0, 2, 2⟩
        ⟨[[5, 1]], [[7, 8]]⟩).out.failed = false ∧
    (ProtoCodec.UnmarshalBinary resettingProto ⟨none⟩ nilSlice ⟨[], []⟩).out
      = Outcome.panicked := by
  decide

/-- C12, amended: for every `ProtoCodec` whose `Msg` is nil and every input
slice, `UnmarshalBinary(data)` ends exactly as the external decoder ends on
`(data, nil)`, `codec.go` having neither a nil check nor a `recover`: it returns
a decoding error when the decoder returns one, and it panics when the decoder
panics. The store is left as the decoder leaves it and `Msg` stays nil. -/
theorem protoCodec_unmarshal_unset_as_decoder {M : Type} (proto : Proto M) (c : ProtoCodec)
    (data : Slice) (w : World M) (hc : c.Msg = none) :
    (ProtoCodec.UnmarshalBinary proto c data w).out = (proto.Unmarshal data none w).1 ∧
    (ProtoCodec.UnmarshalBinary proto c data w).out.failed
      = (proto.Unmarshal data none w).1.failed ∧
    (ProtoCodec.UnmarshalBinary proto c data w).store = (proto.Unmarshal data none w).2 ∧
    (ProtoCodec.UnmarshalBinary proto c data w).recv = c ∧
    (ProtoCodec.UnmarshalBinary proto c data w).recv.Msg = none := by
  obtain ⟨m⟩ := c
  simp only at hc
  subst hc
  exact ⟨rfl, rfl, rfl, rfl, rfl⟩

theorem protoCodec_unmarshal_unset_as_decoder_witness :
    (⟨none⟩ : ProtoCodec).Msg = none ∧
    ((checkedProto.Unmarshal ⟨some 0, 0, 2, 2⟩ none ⟨[[5, 1]], [[7, 8]]⟩).1.failed = true ∧
      (ProtoCodec.UnmarshalBinary checkedProto ⟨none⟩ ⟨some 0, 0, 2, 2⟩
          ⟨[[5, 1]], [[7, 8]]⟩).out.failed = true) ∧
    ((resettingProto.Unmarshal ⟨some 0, 0, 2, 2⟩ none ⟨[[5, 1]], [[7, 8]]⟩).1
        = Outcome.panicked ∧
      (ProtoCodec.UnmarshalBinary resettingProto ⟨none⟩ ⟨some 0, 0, 2, 2⟩
          ⟨[[5, 1]], [[7, 8]]⟩).out
        = (resettingProto.Unmarshal ⟨some 0, 0, 2, 2⟩ none ⟨[[5, 1]], [[7, 8]]⟩).1) :=
  ⟨rfl,
    ⟨by decide,
      ((protoCodec_unmarshal_unset_as_decoder checkedProto ⟨none⟩ ⟨some 0, 0, 2, 2⟩
        ⟨[[5, 1]], [[7, 8]]⟩ rfl).2.1).trans (by decide)⟩,
    ⟨by decide,
      (protoCodec_unmarshal_unset_as_decoder resettingProto ⟨none⟩ ⟨some 0, 0, 2, 2⟩
        ⟨[[5, 1]], [[7, 8]]⟩ rfl).1⟩⟩

/-! ## `cloneBytes`, element by element -/

theorem index_eq_bytes (s : Slice) (h : Heap) (i : Nat) :
    s.index i h = (s.bytes h)[i]? := by
  unfold Slice.index Slice.bytes
  cases hp : s.ptr with
  | none => simp
  | some a =>
    by_cases hi : i < s.len
    · simp [hi, List.getElem?_take_of_lt, List.getElem?_drop]
    · have hlen : (List.take s.len (List.drop s.off (arrayAt h a))).length ≤ i := by
        rw [List.length_take]
        omega
      simp only [hi, if_false]
      exact (List.getElem?_eq_none hlen).symm

theorem cloneBytes_bytes (b : Slice) (h : Heap) (hv : b.valid h) :
    (cloneBytes b h).1.bytes (cloneBytes b h).2 = b.bytes h := by
  rw [cloneBytes_eq b h hv]
  have hf := fresh_bytes h (b.bytes h)
  rw [length_bytes b h hv] at hf
  exact hf

/-- C13: for every byte slice `b`, `cloneBytes(b)` returns a slice of length
exactly `len(b)` that reads at every index as `b` does: the byte `b[i]` for
`i < len(b)`, and out of range beyond. Consequently, after
`ByteCodec.UnmarshalBinary(data)` the stored slice has length `len(data)` and
is element-wise equal to `data`. -/
theorem cloneBytes_copies_elementwise (c : ByteCodec) (b : Slice) (h : Heap) (i : Nat)
    (hv : b.valid h) :
    (len (cloneBytes b h).1 = len b ∧
      ((cloneBytes b h).1.bytes (cloneBytes b h).2).length = len b ∧
      (cloneBytes b h).1.index i (cloneBytes b h).2 = b.index i h ∧
      b.index i h = (b.bytes h)[i]? ∧
      (cloneBytes b h).1.bytes (cloneBytes b h).2 = b.bytes h) ∧
    (len (ByteCodec.UnmarshalBinary c b h).recv = len b ∧
      ((ByteCodec.UnmarshalBinary c b h).recv.bytes
        (ByteCodec.UnmarshalBinary c b h).store).length = len b ∧
      (ByteCodec.UnmarshalBinary c b h).recv.index i (ByteCodec.UnmarshalBinary c b h).store
        = b.index i h ∧
      (ByteCodec.UnmarshalBinary c b h).recv.bytes (ByteCodec.UnmarshalBinary c b h).store
        = b.bytes h) := by
  have hb := cloneBytes_bytes b h hv
  have hl : len (cloneBytes b h).1 = len b := by rw [cloneBytes_eq b h hv]; rfl
  have hi : (cloneBytes b h).1.index i (cloneBytes b h).2 = b.index i h := by
    rw [index_eq_bytes _ _ i, hb, index_eq_bytes b h i]
  have hn : ((cloneBytes b h).1.bytes (cloneBytes b h).2).length = len b := by
    rw [hb]
    exact length_bytes b h hv
  exact ⟨⟨hl, hn, hi, index_eq_bytes b h i, hb⟩, hl, hn, hi, hb⟩

theorem cloneBytes_copies_elementwise_witness :
    Slice.valid ⟨some 0, 1, 3, 4⟩ [[0, 1, 2, 3, 4]] ∧
    len (cloneBytes ⟨some 0, 1, 3, 4⟩ [[0, 1, 2, 3, 4]]).1 = 3 ∧
    (cloneBytes ⟨some 0, 1, 3, 4⟩ [[0, 1, 2, 3, 4]]).1.index 2
        (cloneBytes ⟨some 0, 1, 3, 4⟩ [[0, 1, 2, 3, 4]]).2
      = Slice.index ⟨some 0, 1, 3, 4⟩ 2 [[0, 1, 2, 3, 4]] ∧
    Slice.index ⟨some 0, 1, 3, 4⟩ 2 [[0, 1, 2, 3, 4]] = some 3 ∧
    (ByteCodec.UnmarshalBinary nilSlice ⟨some 0, 1, 3, 4⟩ [[0, 1, 2, 3, 4]]).recv.bytes
        (ByteCodec.UnmarshalBinary nilSlice ⟨some 0, 1, 3, 4⟩ [[0, 1, 2, 3, 4]]).store
      = [1, 2, 3] :=
  ⟨by decide,
    (cloneBytes_copies_elementwise nilSlice ⟨some 0, 1, 3, 4⟩ [[0, 1, 2, 3, 4]] 2
      (by decide)).1.1,
    (cloneBytes_copies_elementwise nilSlice ⟨some 0, 1, 3, 4⟩ [[0, 1, 2, 3, 4]] 2
      (by decide)).1.2.2.1,
    by decide,
    (cloneBytes_copies_elementwise nilSlice ⟨some 0, 1, 3, 4⟩ [[0, 1, 2, 3, 4]] 2
      (by decide)).2.2.2.2⟩

/-! ## A decoded `ByteCodec` is never nil -/

/-- C14: after `c.UnmarshalBinary(data)` with `data` nil or of length zero, a
`ByteCodec` holds a non-nil slice of length zero, reading as no bytes:
`cloneBytes` always allocates. This is so whatever `c` held before, the nil
zero value included. -/
theorem byteCodec_unmarshal_empty_is_not_nil (c : ByteCodec) (data : Slice) (h : Heap)
    (h0 : len data = 0) :
    (ByteCodec.UnmarshalBinary c data h).recv.isNil = false ∧
    len (ByteCodec.UnmarshalBinary c data h).recv = 0 ∧
    (ByteCodec.UnmarshalBinary c data h).recv.bytes (ByteCodec.UnmarshalBinary c data h).store
      = [] := by
  have hr : (ByteCodec.UnmarshalBinary c data h).recv = ⟨some h.length, 0, len data, len data⟩ :=
    rfl
  rw [hr, h0]
  exact ⟨rfl, rfl, by simp [Slice.bytes]⟩

theorem byteCodec_unmarshal_empty_is_not_nil_witness :
    len nilSlice = 0 ∧ nilSlice.isNil = true ∧
    (ByteCodec.UnmarshalBinary nilSlice nilSlice []).recv.isNil = false ∧
    len (ByteCodec.UnmarshalBinary nilSlice nilSlice []).recv = 0 :=
  ⟨rfl, rfl,
    (byteCodec_unmarshal_empty_is_not_nil nilSlice nilSlice [] rfl).1,
    (byteCodec_unmarshal_empty_is_not_nil nilSlice nilSlice [] rfl).2.1⟩

end Galaxycache
